import Mathlib

/-!
Verification of the ntk TLS dissector core against its specification.

Bytes are modelled as `Nat` values (< 256 where it matters), byte buffers
as `List Nat`, and C++ `std::map` as association lists.  Fallible
functions return `Except String α`, the shallow embedding of
`std::expected<α, std::string>`.
-/

namespace ntk

/-- TLS record content types, from the source enum `tls_content_type`
(values 0x14, 0x15, 0x16, 0x17). -/
inductive tls_content_type where
  | CHANGE_CIPHER_SEC
  | ALERT
  | HANDSHAKE
  | APPLICATION_DATA
deriving DecidableEq, Repr

/-- The wire byte of a content type, per the source enum values. -/
def tls_content_type.toByte : tls_content_type → Nat
  | .CHANGE_CIPHER_SEC => 0x14
  | .ALERT => 0x15
  | .HANDSHAKE => 0x16
  | .APPLICATION_DATA => 0x17

/-- Decode a wire byte into a content type; `none` for any byte outside
the four defined values. -/
def tls_content_type.ofByte? (b : Nat) : Option tls_content_type :=
  if b = 0x14 then some .CHANGE_CIPHER_SEC
  else if b = 0x15 then some .ALERT
  else if b = 0x16 then some .HANDSHAKE
  else if b = 0x17 then some .APPLICATION_DATA
  else none

/-- One TLS record frame, from the source struct `tls_record`
(content_type, uint16_t version, byte-vector payload). -/
structure tls_record where
  content_type : tls_content_type
  version : Nat
  payload : List Nat
deriving DecidableEq, Repr

/-- Serialization of a record: 5-byte header (content_type byte,
version big-endian u16, payload length big-endian u16) followed by the
payload, per RFC 8446 §5.1 as described in the spec's record layer. -/
def serialize_record (r : tls_record) : List Nat :=
  r.content_type.toByte :: r.version / 256 :: r.version % 256 ::
    r.payload.length / 256 :: r.payload.length % 256 :: r.payload

/-- A record the splitter round-trips: u16-representable version and a
payload no longer than the splitter's 2^14 + 2048 acceptance bound. -/
def wf_record (r : tls_record) : Prop :=
  r.version < 65536 ∧ r.payload.length ≤ 2 ^ 14 + 2048

instance (r : tls_record) : Decidable (wf_record r) := by
  unfold wf_record; infer_instance

/-- Modelled from the spec: the loop body of `split_tls_records`, whose
implementation is absent from the sources (only declared in the header).
Per spec §4.2: repeatedly read a 5-byte header (content_type u8,
version u16, length u16); an undefined content_type byte or a length
greater than 2^14 + 2048 fails with MalformedRecord; if fewer than
5+length bytes remain the loop stops, leaves the partial header
unconsumed and reports all remaining bytes as the remainder; otherwise
the payload is copied out and the record appended. -/
def split_go (b : List Nat) (acc : List tls_record) :
    Except String (List tls_record × Nat) :=
  match b with
  | b0 :: b1 :: b2 :: b3 :: b4 :: rest =>
    match tls_content_type.ofByte? b0 with
    | none => .error "MalformedRecord"
    | some ct =>
      let len := b3 * 256 + b4
      if len > 2 ^ 14 + 2048 then .error "MalformedRecord"
      else if rest.length < len then
        .ok (acc.reverse, rest.length + 5)
      else
        split_go (rest.drop len)
          (⟨ct, b1 * 256 + b2, rest.take len⟩ :: acc)
  | _ => .ok (acc.reverse, b.length)
termination_by b.length
decreasing_by
  simp only [List.length_cons, List.length_drop]
  omega

/-- Modelled from the spec: `split_tls_records` (declared in the header,
implementation absent).  Consumes a concatenated TCP payload and yields
the ordered list of complete records plus the trailing remainder length,
or a MalformedRecord error. -/
def split_tls_records (tls_payload : List Nat) :
    Except String (List tls_record × Nat) :=
  split_go tls_payload []

theorem ofByte_toByte (ct : tls_content_type) :
    tls_content_type.ofByte? ct.toByte = some ct := by
  cases ct <;> rfl

/-- One splitter step: a well-formed serialized record at the head of the
input is consumed whole and appended to the accumulator. -/
theorem split_go_serialize (r : tls_record) (hr : wf_record r)
    (rest : List Nat) (acc : List tls_record) :
    split_go (serialize_record r ++ rest) acc = split_go rest (r :: acc) := by
  obtain ⟨hv, hp⟩ := hr
  have hlen : r.payload.length / 256 * 256 + r.payload.length % 256 =
      r.payload.length := by omega
  have hver : r.version / 256 * 256 + r.version % 256 = r.version := by omega
  show split_go (r.content_type.toByte :: r.version / 256 :: r.version % 256 ::
      r.payload.length / 256 :: r.payload.length % 256 ::
      (r.payload ++ rest)) acc = split_go rest (r :: acc)
  rw [split_go, ofByte_toByte]
  simp only [hlen, hver, List.length_append]
  rw [if_neg (by omega), if_neg (by omega)]
  rw [List.take_left' rfl, List.drop_left' rfl]

/-- The splitter consumes any prefix of well-formed serialized records,
accumulating them, and continues on the tail. -/
theorem split_go_records (rs : List tls_record)
    (h : ∀ r ∈ rs, wf_record r) (tail : List Nat) (acc : List tls_record) :
    split_go ((rs.map serialize_record).flatten ++ tail) acc =
      split_go tail (rs.reverse ++ acc) := by
  induction rs generalizing acc with
  | nil => simp
  | cons r rs ih =>
    simp only [List.map_cons, List.flatten, List.append_assoc]
    rw [split_go_serialize r (h r (by simp)) _ acc,
      ih (fun x hx => h x (by simp [hx]))]
    simp

/-- C1: for every byte span that is the concatenation of well-formed TLS
records, `split_tls_records` returns exactly those records in order with
remainder 0, and re-serializing each returned record reproduces the
input span. -/
theorem split_records_roundtrip (b : List Nat) (rs : List tls_record)
    (hb : b = (rs.map serialize_record).flatten)
    (h : ∀ r ∈ rs, wf_record r) :
    ∃ out, split_tls_records b = .ok (out, 0) ∧ out = rs ∧
      (out.map serialize_record).flatten = b := by
  refine ⟨rs, ?_, rfl, hb.symm⟩
  have h1 := split_go_records rs h [] []
  rw [List.append_nil, List.append_nil] at h1
  rw [split_tls_records, hb, h1, split_go.eq_def]
  simp

/-- C1 witness at a concrete two-record input. -/
theorem split_records_roundtrip_witness :
    ∃ out,
      split_tls_records
        ([⟨.APPLICATION_DATA, 0x0303, [9, 9]⟩,
          ⟨.HANDSHAKE, 0x0301, [5]⟩].map serialize_record).flatten =
        .ok (out, 0) ∧
      out = [⟨.APPLICATION_DATA, 0x0303, [9, 9]⟩,
             ⟨.HANDSHAKE, 0x0301, [5]⟩] ∧
      (out.map serialize_record).flatten =
        ([⟨.APPLICATION_DATA, 0x0303, [9, 9]⟩,
          ⟨.HANDSHAKE, 0x0301, [5]⟩].map serialize_record).flatten :=
  split_records_roundtrip _ _ rfl (by decide)

/-- C2: when the final record is incomplete — a valid 5-byte header
declares length `L` but fewer than `L` payload bytes follow — the
splitter stops after the preceding complete records, does not emit the
partial record, does not consume its header, and reports all unconsumed
trailing bytes (5 header bytes plus the partial body) as the remainder. -/
theorem split_records_fragmented (rs : List tls_record)
    (h : ∀ r ∈ rs, wf_record r)
    (b0 b1 b2 b3 b4 : Nat) (body : List Nat) (ct : tls_content_type)
    (hct : tls_content_type.ofByte? b0 = some ct)
    (hmax : b3 * 256 + b4 ≤ 2 ^ 14 + 2048)
    (hfrag : body.length < b3 * 256 + b4) :
    split_tls_records ((rs.map serialize_record).flatten ++
        (b0 :: b1 :: b2 :: b3 :: b4 :: body)) =
      .ok (rs, 5 + body.length) := by
  have h1 := split_go_records rs h (b0 :: b1 :: b2 :: b3 :: b4 :: body) []
  rw [List.append_nil] at h1
  rw [split_tls_records, h1, split_go, hct]
  dsimp only
  rw [if_neg (by omega), if_pos hfrag]
  simp [Nat.add_comm]

/-- C2 witness: a lone header declaring length 100 followed by 40 body
bytes yields zero records and remainder 45. -/
theorem split_records_fragmented_witness :
    split_tls_records (0x17 :: 3 :: 3 :: 0 :: 100 :: List.replicate 40 0) =
      .ok ([], 45) := by
  have h := split_records_fragmented [] (by decide) 0x17 3 3 0 100
    (List.replicate 40 0) .APPLICATION_DATA (by decide) (by decide) (by decide)
  simpa using h

/-- C3: whenever the 5-byte header reached after any prefix of
well-formed records has an undefined content_type byte or declares a
length greater than 2^14 + 2048, `split_tls_records` fails with
MalformedRecord and returns no records at all — in particular none of
the records before or after the offending header. -/
theorem split_records_malformed (rs : List tls_record)
    (h : ∀ r ∈ rs, wf_record r)
    (b0 b1 b2 b3 b4 : Nat) (rest : List Nat)
    (hbad : tls_content_type.ofByte? b0 = none ∨
      b3 * 256 + b4 > 2 ^ 14 + 2048) :
    split_tls_records ((rs.map serialize_record).flatten ++
        (b0 :: b1 :: b2 :: b3 :: b4 :: rest)) =
      .error "MalformedRecord" := by
  have h1 := split_go_records rs h (b0 :: b1 :: b2 :: b3 :: b4 :: rest) []
  rw [List.append_nil] at h1
  rw [split_tls_records, h1, split_go]
  rcases hbad with hct | hlen
  · rw [hct]
  · cases hcase : tls_content_type.ofByte? b0 with
    | none => rfl
    | some ct =>
      dsimp only
      rw [if_pos hlen]

/-- C3 witness: a header with content_type byte 0x13 (undefined) fails
with MalformedRecord even though payload bytes follow. -/
theorem split_records_malformed_witness :
    split_tls_records [0x13, 3, 3, 0, 1, 0] = .error "MalformedRecord" := by
  have h := split_records_malformed [] (by decide) 0x13 3 3 0 1 [0]
    (Or.inl (by decide))
  simpa using h

/-- Big-endian encoding of `v` into `w` bytes (truncating above 2^(8w)). -/
def be_bytes : Nat → Nat → List Nat
  | 0, _ => []
  | w + 1, v => be_bytes w (v / 256) ++ [v % 256]

/-- Modelled from the spec: `build_tls13_nonce` (declared in the header,
implementation absent).  Per spec §4.6 / RFC 8446 §5.3: pad the sequence
number to 12 bytes big-endian, then XOR byte-wise with the base IV. -/
def build_tls13_nonce (base_iv : List Nat) (seq_num : Nat) : List Nat :=
  List.zipWith Nat.xor base_iv (be_bytes 12 seq_num)

theorem be_bytes_length (w v : Nat) : (be_bytes w v).length = w := by
  induction w generalizing v with
  | zero => rfl
  | succ w ih => simp [be_bytes, ih]

theorem be_bytes_zero (w : Nat) : be_bytes w 0 = List.replicate w 0 := by
  induction w with
  | zero => rfl
  | succ w ih =>
    simp only [be_bytes, Nat.zero_div, ih, Nat.zero_mod]
    rw [← List.replicate_succ', List.replicate_succ]

theorem zipWith_xor_zero (l : List Nat) :
    List.zipWith Nat.xor l (List.replicate l.length 0) = l := by
  induction l with
  | nil => rfl
  | cons x xs ih =>
    show Nat.xor x 0 :: List.zipWith Nat.xor xs (List.replicate xs.length 0) =
      x :: xs
    rw [ih]
    exact congrArg (fun y => y :: xs) (Nat.xor_zero x)

/-- C5: for a 12-byte base IV `i` and any sequence number `s`, the nonce
has length 12 and is the byte-wise XOR of `i` with the big-endian
12-byte expansion of `s` (byte `j` being `s / 2^(8*(11-j)) % 256`); in
particular the nonce for sequence number 0 is `i` itself. -/
theorem build_tls13_nonce_spec (i : List Nat) (s : Nat)
    (hi : i.length = 12) :
    (build_tls13_nonce i s).length = 12 ∧
    build_tls13_nonce i s = List.zipWith Nat.xor i
      [s / 2 ^ 88 % 256, s / 2 ^ 80 % 256, s / 2 ^ 72 % 256,
       s / 2 ^ 64 % 256, s / 2 ^ 56 % 256, s / 2 ^ 48 % 256,
       s / 2 ^ 40 % 256, s / 2 ^ 32 % 256, s / 2 ^ 24 % 256,
       s / 2 ^ 16 % 256, s / 2 ^ 8 % 256, s % 256] ∧
    build_tls13_nonce i 0 = i := by
  refine ⟨?_, ?_, ?_⟩
  · simp [build_tls13_nonce, be_bytes_length, hi]
  · have hb : be_bytes 12 s =
        [s / 2 ^ 88 % 256, s / 2 ^ 80 % 256, s / 2 ^ 72 % 256,
         s / 2 ^ 64 % 256, s / 2 ^ 56 % 256, s / 2 ^ 48 % 256,
         s / 2 ^ 40 % 256, s / 2 ^ 32 % 256, s / 2 ^ 24 % 256,
         s / 2 ^ 16 % 256, s / 2 ^ 8 % 256, s % 256] := by
      simp [be_bytes, Nat.div_div_eq_div_mul]
    rw [build_tls13_nonce, hb]
  · rw [build_tls13_nonce, be_bytes_zero, ← hi, zipWith_xor_zero]

/-- C5 witness at a concrete IV and sequence number 258. -/
theorem build_tls13_nonce_spec_witness :
    ([1, 2, 3, 4, 5, 6, 7, 8, 9, 10, 11, 12] : List Nat).length = 12 ∧
    (build_tls13_nonce [1, 2, 3, 4, 5, 6, 7, 8, 9, 10, 11, 12] 258).length = 12 ∧
    build_tls13_nonce [1, 2, 3, 4, 5, 6, 7, 8, 9, 10, 11, 12] 258 =
      List.zipWith Nat.xor [1, 2, 3, 4, 5, 6, 7, 8, 9, 10, 11, 12]
        [258 / 2 ^ 88 % 256, 258 / 2 ^ 80 % 256, 258 / 2 ^ 72 % 256,
         258 / 2 ^ 64 % 256, 258 / 2 ^ 56 % 256, 258 / 2 ^ 48 % 256,
         258 / 2 ^ 40 % 256, 258 / 2 ^ 32 % 256, 258 / 2 ^ 24 % 256,
         258 / 2 ^ 16 % 256, 258 / 2 ^ 8 % 256, 258 % 256] ∧
    build_tls13_nonce [1, 2, 3, 4, 5, 6, 7, 8, 9, 10, 11, 12] 0 =
      [1, 2, 3, 4, 5, 6, 7, 8, 9, 10, 11, 12] := by
  have h := build_tls13_nonce_spec [1, 2, 3, 4, 5, 6, 7, 8, 9, 10, 11, 12]
    258 (by decide)
  exact ⟨by decide, h.1, h.2.1, h.2.2⟩

/-- Modelled from the spec: the record-driving skeleton of
`decrypt_tls_data` (declared in the header, implementation absent).
Per spec §4.6: a sequence counter starts at 0; each APPLICATION_DATA
record of the target label's direction is decrypted with the current
counter value, which then increments by 1; every other record (other
direction, change_cipher_spec, plain alerts) passes through unchanged
without advancing the counter.  The AES-GCM decryption itself
(`decrypt_record` at a given sequence number) is abstracted as `dec`,
and membership in the target label's direction as `dir`. -/
def decrypt_tls_data (dec : tls_record → Nat → tls_record)
    (dir : tls_record → Bool) :
    List tls_record → Nat → List tls_record
  | [], _ => []
  | r :: rs, seq =>
    if r.content_type = .APPLICATION_DATA ∧ dir r = true then
      dec r seq :: decrypt_tls_data dec dir rs (seq + 1)
    else
      r :: decrypt_tls_data dec dir rs seq

theorem decrypt_tls_data_cons (dec : tls_record → Nat → tls_record)
    (dir : tls_record → Bool) (r : tls_record) (rs : List tls_record)
    (seq : Nat) :
    decrypt_tls_data dec dir (r :: rs) seq =
      if r.content_type = .APPLICATION_DATA ∧ dir r = true then
        dec r seq :: decrypt_tls_data dec dir rs (seq + 1)
      else
        r :: decrypt_tls_data dec dir rs seq := rfl

/-- The decryption driver preserves the record count. -/
theorem decrypt_tls_data_length (dec : tls_record → Nat → tls_record)
    (dir : tls_record → Bool) (recs : List tls_record) (seq : Nat) :
    (decrypt_tls_data dec dir recs seq).length = recs.length := by
  induction recs generalizing seq with
  | nil => rfl
  | cons r rs ih =>
    rw [decrypt_tls_data_cons]
    split <;> simp [ih]

/-- Element-wise behaviour of the driver for an arbitrary starting
counter: the i-th output record is the i-th input record, decrypted at
counter `seq` plus the number of preceding counted records when it is
counted, and untouched otherwise. -/
theorem decrypt_tls_data_get (dec : tls_record → Nat → tls_record)
    (dir : tls_record → Bool) (recs : List tls_record) (seq : Nat)
    (i : Nat) (hi : i < recs.length) :
    (decrypt_tls_data dec dir recs seq).getD i ⟨.ALERT, 0, []⟩ =
      (if (recs.getD i ⟨.ALERT, 0, []⟩).content_type = .APPLICATION_DATA ∧
          dir (recs.getD i ⟨.ALERT, 0, []⟩) = true then
        dec (recs.getD i ⟨.ALERT, 0, []⟩)
          (seq + (recs.take i).countP
            (fun r => decide (r.content_type = .APPLICATION_DATA) && dir r))
      else recs.getD i ⟨.ALERT, 0, []⟩) := by
  induction recs generalizing seq i with
  | nil => exact absurd hi (by simp)
  | cons r rs ih =>
    rw [decrypt_tls_data_cons]
    by_cases hr : r.content_type = .APPLICATION_DATA ∧ dir r = true
    · rw [if_pos hr]
      cases i with
      | zero => simp [hr]
      | succ i =>
        have hi' : i < rs.length := by simpa using hi
        have h := ih (seq + 1) i hi'
        simp [hr.1, hr.2, Nat.add_assoc, Nat.add_comm, Nat.add_left_comm]
          at h ⊢
        exact h
    · rw [if_neg hr]
      cases i with
      | zero => simp [hr]
      | succ i =>
        have hi' : i < rs.length := by simpa using hi
        have h := ih seq i hi'
        simp only [List.getD_cons_succ, List.take_succ_cons,
          List.countP_cons, h]
        have hcount : (decide (r.content_type = .APPLICATION_DATA) &&
            dir r) = false := by
          rcases Decidable.not_and_iff_or_not.mp hr with h1 | h1 <;>
            simp [h1]
        rw [hcount]
        simp

/-- C6: starting from counter 0, `decrypt_tls_data` assigns sequence
numbers 0,1,2,… to the consecutive APPLICATION_DATA records of the
target direction in input order (the i-th output equals the i-th input
decrypted at the count of such records before it), while records of
another direction and non-APPLICATION_DATA records are returned
unchanged at their position and do not advance the counter; the output
has one record per input record. -/
theorem decrypt_tls_data_seq (dec : tls_record → Nat → tls_record)
    (dir : tls_record → Bool) (recs : List tls_record) :
    (decrypt_tls_data dec dir recs 0).length = recs.length ∧
    ∀ i, i < recs.length →
      (decrypt_tls_data dec dir recs 0).getD i ⟨.ALERT, 0, []⟩ =
        (if (recs.getD i ⟨.ALERT, 0, []⟩).content_type = .APPLICATION_DATA ∧
            dir (recs.getD i ⟨.ALERT, 0, []⟩) = true then
          dec (recs.getD i ⟨.ALERT, 0, []⟩)
            ((recs.take i).countP
              (fun r => decide (r.content_type = .APPLICATION_DATA) && dir r))
        else recs.getD i ⟨.ALERT, 0, []⟩) := by
  refine ⟨decrypt_tls_data_length dec dir recs 0, fun i hi => ?_⟩
  have h := decrypt_tls_data_get dec dir recs 0 i hi
  simpa using h

/-- C6 witness: five records, where the two APPLICATION_DATA records of
the target direction (version 1 here) receive sequence numbers 0 and 1
while a change_cipher_spec, an other-direction record and an alert pass
through; checked at the fourth record, decrypted at counter 1. -/
theorem decrypt_tls_data_seq_witness :
    (3 : Nat) < ([⟨.APPLICATION_DATA, 1, [9]⟩, ⟨.CHANGE_CIPHER_SEC, 1, []⟩,
        ⟨.APPLICATION_DATA, 2, []⟩, ⟨.APPLICATION_DATA, 1, [7]⟩,
        ⟨.ALERT, 1, []⟩] : List tls_record).length ∧
    (decrypt_tls_data (fun r n => ⟨r.content_type, r.version, n :: r.payload⟩)
        (fun r => r.version == 1)
        [⟨.APPLICATION_DATA, 1, [9]⟩, ⟨.CHANGE_CIPHER_SEC, 1, []⟩,
         ⟨.APPLICATION_DATA, 2, []⟩, ⟨.APPLICATION_DATA, 1, [7]⟩,
         ⟨.ALERT, 1, []⟩] 0).getD 3 ⟨.ALERT, 0, []⟩ =
      ⟨.APPLICATION_DATA, 1, [1, 7]⟩ := by
  refine ⟨by decide, ?_⟩
  have h := (decrypt_tls_data_seq
    (fun r n => ⟨r.content_type, r.version, n :: r.payload⟩)
    (fun r => r.version == 1)
    [⟨.APPLICATION_DATA, 1, [9]⟩, ⟨.CHANGE_CIPHER_SEC, 1, []⟩,
     ⟨.APPLICATION_DATA, 2, []⟩, ⟨.APPLICATION_DATA, 1, [7]⟩,
     ⟨.ALERT, 1, []⟩]).2 3 (by decide)
  exact h.trans (by decide)

/-- Lowercase hex digit for a value below 16, as produced by the hex
formatting helpers. -/
def hexDigit (n : Nat) : Char :=
  if n < 10 then Char.ofNat (48 + n) else Char.ofNat (87 + n)

/-- Modelled from the spec: `client_random_to_hex` (declared in the
header, implementation absent) — the 32 random bytes rendered as 64
lowercase hex characters, two per byte, most significant nibble first. -/
def client_random_to_hex (random : List Nat) : String :=
  ⟨(random.map (fun b => [hexDigit (b / 16), hexDigit (b % 16)])).flatten⟩

/-- The source alias `secrets = map<string, map<string, vector<uint8>>>`,
modelled as nested association lists keyed by the client-random hex
string and the secret label. -/
def secrets := List (String × List (String × List Nat))

/-- Modelled from the spec: `get_traffic_secret` (declared in the
header, implementation absent).  Per spec §4.4: look the client random
up in the store, then the label in its entry; either miss fails with
SecretMissing, a hit returns the stored secret bytes. -/
def get_traffic_secret (session_keys : secrets) (client_random : List Nat)
    (label : String) : Except String (List Nat) :=
  match List.lookup (client_random_to_hex client_random) session_keys with
  | none => .error "SecretMissing"
  | some entry =>
    match List.lookup label entry with
    | none => .error "SecretMissing"
    | some secret => .ok secret

/-- C7: `get_traffic_secret` returns exactly the stored secret bytes
when the store holds an entry for the client random's hex key that
contains the label, and fails with the SecretMissing error value (it
cannot throw) whenever either the client random or the label is
absent. -/
theorem get_traffic_secret_spec (store : secrets) (cr : List Nat)
    (label : String) :
    (∀ v, get_traffic_secret store cr label = .ok v ↔
      ∃ entry, List.lookup (client_random_to_hex cr) store = some entry ∧
        List.lookup label entry = some v) ∧
    (get_traffic_secret store cr label = .error "SecretMissing" ↔
      ¬ ∃ entry v,
        List.lookup (client_random_to_hex cr) store = some entry ∧
          List.lookup label entry = some v) := by
  unfold get_traffic_secret
  cases hs : List.lookup (client_random_to_hex cr) store with
  | none => simp [hs]
  | some entry =>
    cases hl : List.lookup label entry with
    | none => simp [hs, hl]
    | some secret => simp [hs, hl]

/-- C7 witness: a one-entry store hit returns the bytes, and a missing
label on the same store gives SecretMissing. -/
theorem get_traffic_secret_spec_witness :
    get_traffic_secret
        [(client_random_to_hex [0xab], [("SERVER_TRAFFIC_SECRET_0", [1, 2])])]
        [0xab] "SERVER_TRAFFIC_SECRET_0" = .ok [1, 2] ∧
    get_traffic_secret
        [(client_random_to_hex [0xab], [("SERVER_TRAFFIC_SECRET_0", [1, 2])])]
        [0xab] "EXPORTER_SECRET" = .error "SecretMissing" := by
  constructor
  · exact ((get_traffic_secret_spec
      [(client_random_to_hex [0xab], [("SERVER_TRAFFIC_SECRET_0", [1, 2])])]
      [0xab] "SERVER_TRAFFIC_SECRET_0").1 [1, 2]).mpr
      ⟨[("SERVER_TRAFFIC_SECRET_0", [1, 2])], by decide, by decide⟩
  · refine (get_traffic_secret_spec
      [(client_random_to_hex [0xab], [("SERVER_TRAFFIC_SECRET_0", [1, 2])])]
      [0xab] "EXPORTER_SECRET").2.mpr ?_
    rintro ⟨entry, v, he, hv⟩
    have hX : List.lookup (client_random_to_hex [0xab])
        [(client_random_to_hex [0xab], [("SERVER_TRAFFIC_SECRET_0", [1, 2])])] =
        some [("SERVER_TRAFFIC_SECRET_0", [1, 2])] := by decide
    rw [hX] at he
    cases he
    have hn : (List.lookup "EXPORTER_SECRET"
        [("SERVER_TRAFFIC_SECRET_0", [1, 2])] : Option (List Nat)) = none := by
      decide
    rw [hn] at hv
    cases hv

/-- The five recognized secret labels, in the order of the source array
`tls_secret_labels`. -/
def tls_secret_labels : List String :=
  ["SERVER_HANDSHAKE_TRAFFIC_SECRET",
   "EXPORTER_SECRET",
   "SERVER_TRAFFIC_SECRET_0",
   "CLIENT_HANDSHAKE_TRAFFIC_SECRET",
   "CLIENT_TRAFFIC_SECRET_0"]

/-- Modelled from the spec: `is_complete_secrets` (declared in the
header, implementation absent).  Per spec §3: a per-client-random entry
is complete iff every one of the five recognized labels is present. -/
def is_complete_secrets (entry : List (String × List Nat)) : Bool :=
  tls_secret_labels.all (fun l => entry.any (fun p => p.1 == l))

theorem any_fst_iff (entry : List (String × List Nat)) (l : String) :
    entry.any (fun p => p.1 == l) = true ↔ ∃ v, (l, v) ∈ entry := by
  rw [List.any_eq_true]
  constructor
  · rintro ⟨⟨k, v⟩, hp, hk⟩
    have hkl : k = l := by simpa using hk
    subst hkl
    exact ⟨v, hp⟩
  · rintro ⟨v, hv⟩
    exact ⟨(l, v), hv, by simp⟩

/-- C8: `is_complete_secrets` holds exactly when the entry carries all
five recognized labels — listed here in the claim's order, which differs
from the source array's order, so presence is order-insensitive. -/
theorem is_complete_secrets_spec (entry : List (String × List Nat)) :
    is_complete_secrets entry = true ↔
      ∀ l ∈ ["CLIENT_HANDSHAKE_TRAFFIC_SECRET",
             "SERVER_HANDSHAKE_TRAFFIC_SECRET",
             "CLIENT_TRAFFIC_SECRET_0",
             "SERVER_TRAFFIC_SECRET_0",
             "EXPORTER_SECRET"], ∃ v, (l, v) ∈ entry := by
  simp only [is_complete_secrets, tls_secret_labels, List.all_eq_true,
    List.forall_mem_cons, List.forall_mem_nil, any_fst_iff]
  tauto

/-- C8 witness: an entry with the five labels in an unrelated order is
complete. -/
theorem is_complete_secrets_spec_witness :
    is_complete_secrets
      [("EXPORTER_SECRET", []), ("CLIENT_TRAFFIC_SECRET_0", [1]),
       ("SERVER_HANDSHAKE_TRAFFIC_SECRET", []),
       ("CLIENT_HANDSHAKE_TRAFFIC_SECRET", []),
       ("SERVER_TRAFFIC_SECRET_0", [2])] = true := by
  refine (is_complete_secrets_spec _).mpr ?_
  intro l hl
  simp only [List.mem_cons, List.not_mem_nil, or_false] at hl
  rcases hl with rfl | rfl | rfl | rfl | rfl
  · exact ⟨[], by decide⟩
  · exact ⟨[], by decide⟩
  · exact ⟨[1], by decide⟩
  · exact ⟨[2], by decide⟩
  · exact ⟨[], by decide⟩

/-- Whitespace characters skipped by `operator>>` on an
`std::istringstream` (classic-locale isspace). -/
def is_stream_ws (c : Char) : Bool :=
  c == ' ' || c == '\t' || c == '\n' || c == (Char.ofNat 11) ||
    c == (Char.ofNat 12) || c == '\r'

theorem dropWhile_head_false {α : Type} {p : α → Bool} {l rest : List α}
    {c : α} (h : l.dropWhile p = c :: rest) : p c = false := by
  induction l with
  | nil => simp at h
  | cons x xs ih =>
    by_cases hx : p x
    · rw [List.dropWhile_cons_of_pos hx] at h
      exact ih h
    · rw [List.dropWhile_cons_of_neg hx] at h
      injection h with h1 h2
      subst h1
      simpa using hx

/-- The token stream produced by repeated `iss >> byte_string` in
`read_packets_from_file` / `parse_hex_line` (src/utils.cpp): skip
whitespace, then read a maximal run of non-whitespace characters, until
the line is exhausted. -/
def tokenize (l : List Char) : List (List Char) :=
  match h : l.dropWhile is_stream_ws with
  | [] => []
  | c :: rest =>
    (c :: rest).takeWhile (fun x => !is_stream_ws x) ::
      tokenize ((c :: rest).dropWhile (fun x => !is_stream_ws x))
termination_by l.length
decreasing_by
  have hsub : (c :: rest).length ≤ l.length := by
    rw [← h]
    exact (List.dropWhile_sublist _).length_le
  have hc : is_stream_ws c = false := dropWhile_head_false h
  have : (c :: rest).dropWhile (fun x => !is_stream_ws x) =
      rest.dropWhile (fun x => !is_stream_ws x) := by
    rw [List.dropWhile_cons_of_pos]
    simp [hc]
  rw [this]
  have : (rest.dropWhile (fun x => !is_stream_ws x)).length ≤ rest.length :=
    (List.dropWhile_sublist _).length_le
  simp only [List.length_cons] at hsub
  omega

/-- Numeric value of a hex digit, 0 on other characters — the digit
step of `std::stoul(_, nullptr, 16)` on a valid hex token. -/
def hexVal (c : Char) : Nat :=
  if '0' ≤ c ∧ c ≤ '9' then c.toNat - 48
  else if 'a' ≤ c ∧ c ≤ 'f' then c.toNat - 87
  else if 'A' ≤ c ∧ c ≤ 'F' then c.toNat - 55
  else 0

/-- `static_cast<uint8_t>(std::stoul(tok, nullptr, 16))` on one token:
base-16 accumulation truncated to a byte. -/
def token_to_byte (tok : List Char) : Nat :=
  (tok.foldl (fun acc c => acc * 16 + hexVal c) 0) % 256

/-- `parse_hex_line` (src/utils.cpp lines 48-60): every
whitespace-separated token of the line becomes one byte, in order. -/
def parse_hex_line (line : List Char) : List Nat :=
  (tokenize line).map token_to_byte

/-- `read_packets_from_file` (src/utils.cpp lines 15-45) after the file
is read into lines: per line, extract the bytes of its tokens; keep the
packet only when it is non-empty. -/
def read_packets_from_file (lines : List (List Char)) : List (List Nat) :=
  match lines with
  | [] => []
  | line :: rest =>
    let packet := (tokenize line).map token_to_byte
    if packet.isEmpty then read_packets_from_file rest
    else packet :: read_packets_from_file rest

/-- C9: the packets read from a dump are exactly one packet per line
having at least one whitespace-separated token — that packet being the
line's token bytes in token order — lines without tokens (blank lines
in particular) contributing no packet. -/
theorem read_packets_from_file_spec (lines : List (List Char)) :
    read_packets_from_file lines =
      (lines.filter (fun l => !(tokenize l).isEmpty)).map
        (fun l => (tokenize l).map token_to_byte) ∧
    tokenize ([] : List Char) = [] ∧
    ∀ line : List Char, (∀ c ∈ line, is_stream_ws c = true) →
      tokenize line = [] := by
  have htnil : tokenize ([] : List Char) = [] := by
    rw [tokenize.eq_def]
    rfl
  refine ⟨?_, htnil, ?_⟩
  · induction lines with
    | nil => rfl
    | cons line rest ih =>
      rw [read_packets_from_file]
      by_cases hp : ((tokenize line).map token_to_byte).isEmpty
      · have ht : (tokenize line).isEmpty = true := by
          simpa [List.isEmpty_iff] using hp
        simp [hp, ht, List.filter_cons, ih]
      · have ht : ¬ (tokenize line).isEmpty = true := by
          simpa [List.isEmpty_iff] using hp
        simp [hp, ht, List.filter_cons, ih]
  · intro line hws
    rw [tokenize.eq_def]
    have : line.dropWhile is_stream_ws = [] :=
      List.dropWhile_eq_nil_iff.mpr hws
    rw [this]

/-- C9 witness: a two-line dump whose second line is blank yields one
packet with the bytes in token order. -/
theorem read_packets_from_file_spec_witness :
    read_packets_from_file
        [[ 'a', 'b', ' ', '0', 'f' ], []] =
      (([[ 'a', 'b', ' ', '0', 'f' ], []].filter
          (fun l => !(tokenize l).isEmpty)).map
        (fun l => (tokenize l).map token_to_byte)) ∧
    (∀ c ∈ ([] : List Char), is_stream_ws c = true) ∧
    tokenize ([] : List Char) = [] :=
  ⟨(read_packets_from_file_spec [[ 'a', 'b', ' ', '0', 'f' ], []]).1,
   by decide,
   (read_packets_from_file_spec []).2.2 [] (by decide)⟩

/-- The character set `" \t\r\n"` used by `trim` (src/utils.cpp). -/
def is_trim_ws (c : Char) : Bool :=
  c == ' ' || c == '\t' || c == '\r' || c == '\n'

/-- `str.find_first_not_of(" \t\r\n")`: index of the first character
outside the set, `none` standing for `npos`. -/
def find_first_not_of : List Char → Option Nat
  | [] => none
  | c :: t =>
    if is_trim_ws c then (find_first_not_of t).map (· + 1) else some 0

/-- `str.find_last_not_of(" \t\r\n")`: index of the last character
outside the set, `none` standing for `npos`. -/
def find_last_not_of (l : List Char) : Option Nat :=
  (find_first_not_of l.reverse).map (fun i => l.length - 1 - i)

/-- `trim` (src/utils.cpp lines 5-13): empty when either search misses,
otherwise `str.substr(start, end - start + 1)`. -/
def trim (l : List Char) : List Char :=
  match find_first_not_of l, find_last_not_of l with
  | some s, some e => (l.drop s).take (e - s + 1)
  | _, _ => []

theorem find_first_not_of_lt {l : List Char} {i : Nat}
    (h : find_first_not_of l = some i) : i < l.length := by
  induction l generalizing i with
  | nil => simp [find_first_not_of] at h
  | cons c t ih =>
    rw [find_first_not_of] at h
    by_cases hc : is_trim_ws c
    · rw [if_pos hc] at h
      cases ht : find_first_not_of t with
      | none => rw [ht] at h; simp at h
      | some j =>
        rw [ht] at h
        have h2 : j + 1 = i := by simpa using h
        subst h2
        have := ih ht
        simp only [List.length_cons]
        omega
    · rw [if_neg hc] at h
      cases h
      simp

theorem find_first_not_of_none_iff {l : List Char} :
    find_first_not_of l = none ↔ ∀ c ∈ l, is_trim_ws c = true := by
  induction l with
  | nil => simp [find_first_not_of]
  | cons c t ih =>
    rw [find_first_not_of]
    by_cases hc : is_trim_ws c
    · rw [if_pos hc]
      simp [hc, ih]
    · rw [if_neg hc]
      simp [hc]

/-- Appending a trimmable character does not move the first non-set
index. -/
theorem find_first_not_of_append_ws {l : List Char} {d : Char}
    (hd : is_trim_ws d = true) :
    find_first_not_of (l ++ [d]) = find_first_not_of l := by
  induction l with
  | nil => simp [find_first_not_of, hd]
  | cons c t ih =>
    rw [List.cons_append, find_first_not_of, find_first_not_of, ih]

/-- The first non-set index from the left and from the right fit inside
the string together. -/
theorem find_first_not_of_add_lt {l : List Char} {s j : Nat}
    (hs : find_first_not_of l = some s)
    (hj : find_first_not_of l.reverse = some j) : s + j < l.length := by
  induction l generalizing s with
  | nil => simp [find_first_not_of] at hs
  | cons c t ih =>
    rw [find_first_not_of] at hs
    by_cases hc : is_trim_ws c
    · rw [if_pos hc] at hs
      cases ht : find_first_not_of t with
      | none => rw [ht] at hs; simp at hs
      | some s' =>
        rw [ht] at hs
        have h2 : s' + 1 = s := by simpa using hs
        subst h2
        have hj' : find_first_not_of t.reverse = some j := by
          have := find_first_not_of_append_ws (l := t.reverse) hc
          rw [← this]
          simpa using hj
        have := ih ht hj'
        simp only [List.length_cons]
        omega
    · rw [if_neg hc] at hs
      cases hs
      have := find_first_not_of_lt hj
      simp at this ⊢
      omega

/-- Dropping a leading trimmable character does not change the trim. -/
theorem trim_cons_ws {c : Char} (t : List Char) (hc : is_trim_ws c = true) :
    trim (c :: t) = trim t := by
  rw [trim, trim]
  rw [show find_first_not_of (c :: t) = (find_first_not_of t).map (· + 1) by
    rw [find_first_not_of, if_pos hc]]
  rw [show find_last_not_of (c :: t) =
      (find_first_not_of t.reverse).map (fun i => t.length - i) by
    rw [find_last_not_of, List.reverse_cons, find_first_not_of_append_ws hc]
    simp]
  cases hf : find_first_not_of t with
  | none =>
    have hr : find_first_not_of t.reverse = none := by
      rw [find_first_not_of_none_iff] at hf ⊢
      simpa using hf
    rw [find_last_not_of, hr]
    rfl
  | some s =>
    cases hr : find_first_not_of t.reverse with
    | none =>
      rw [find_first_not_of_none_iff] at hr
      have : find_first_not_of t = none := by
        rw [find_first_not_of_none_iff]
        intro x hx
        exact hr x (by simpa using hx)
      rw [this] at hf
      cases hf
    | some j =>
      rw [find_last_not_of, hr]
      simp only [Option.map_some', List.drop_succ_cons]
      have h1 := find_first_not_of_lt hr
      have h2 := find_first_not_of_add_lt hf hr
      simp only [List.length_reverse] at h1
      congr 1
      omega

/-- Dropping a trailing trimmable character does not change the trim. -/
theorem trim_append_ws (l : List Char) {d : Char}
    (hd : is_trim_ws d = true) : trim (l ++ [d]) = trim l := by
  rw [trim, trim, find_first_not_of_append_ws hd]
  have hlast : find_last_not_of (l ++ [d]) = find_last_not_of l := by
    rw [find_last_not_of, find_last_not_of, List.reverse_append]
    simp only [List.reverse_cons, List.reverse_nil, List.nil_append,
      List.singleton_append]
    rw [find_first_not_of, if_pos hd]
    cases hr : find_first_not_of l.reverse with
    | none => simp
    | some j =>
      simp only [Option.map_some', List.length_append, List.length_cons,
        List.length_nil]
      have := find_first_not_of_lt hr
      simp only [List.length_reverse] at this
      have heq : l.length + (0 + 1) - 1 - (j + 1) = l.length - 1 - j := by
        omega
      rw [heq]
  rw [hlast]
  cases hf : find_first_not_of l with
  | none => rfl
  | some s =>
    cases he : find_last_not_of l with
    | none => rfl
    | some e =>
      have hs := find_first_not_of_lt hf
      have hj : ∃ j, find_first_not_of l.reverse = some j ∧
          e = l.length - 1 - j := by
        rw [find_last_not_of] at he
        cases hr : find_first_not_of l.reverse with
        | none => rw [hr] at he; cases he
        | some j =>
          rw [hr] at he
          have h2 : l.length - 1 - j = e := by simpa using he
          exact ⟨j, rfl, h2.symm⟩
      obtain ⟨j, hr, hej⟩ := hj
      have hjl := find_first_not_of_lt hr
      simp only [List.length_reverse] at hjl
      dsimp only
      rw [List.drop_append_of_le_length (by omega)]
      rw [List.take_append_of_le_length]
      simp only [List.length_drop]
      omega

/-- Right-trim: remove trailing characters of the set. -/
def rtrim (l : List Char) : List Char :=
  (l.reverse.dropWhile is_trim_ws).reverse

theorem rtrim_append_ws (l : List Char) {d : Char}
    (hd : is_trim_ws d = true) : rtrim (l ++ [d]) = rtrim l := by
  rw [rtrim, rtrim, List.reverse_append]
  simp only [List.reverse_cons, List.reverse_nil, List.nil_append,
    List.singleton_append]
  rw [List.dropWhile_cons_of_pos hd]

theorem rtrim_cons_not_ws {c : Char} (t : List Char)
    (hc : is_trim_ws c = false) : rtrim (c :: t) = c :: rtrim t := by
  rw [rtrim, rtrim, List.reverse_cons, List.dropWhile_append]
  by_cases h : (t.reverse.dropWhile is_trim_ws).isEmpty
  · rw [if_pos h]
    rw [List.isEmpty_iff] at h
    rw [h, List.dropWhile_cons_of_neg (by simp [hc])]
    simp
  · rw [if_neg h]
    simp

/-- A head-untrimmable string trims to its right-trim: the whole string
up to its last non-set character. -/
theorem trim_cons_not_ws {c : Char} (t : List Char)
    (hc : is_trim_ws c = false) : trim (c :: t) = c :: rtrim t := by
  induction t using List.reverseRecOn with
  | nil =>
    rw [trim]
    rw [show find_first_not_of [c] = some 0 by
      rw [find_first_not_of, if_neg (by simp [hc])]]
    rw [show find_last_not_of [c] = some 0 by
      rw [find_last_not_of]
      simp only [List.reverse_singleton]
      rw [find_first_not_of, if_neg (by simp [hc])]
      rfl]
    rfl
  | append_singleton t' d ih =>
    by_cases hd : is_trim_ws d
    · rw [show c :: (t' ++ [d]) = (c :: t') ++ [d] by simp,
        trim_append_ws _ hd, ih, rtrim_append_ws _ hd]
    · have hdf : is_trim_ws d = false := by simpa using hd
      have hrt : rtrim (t' ++ [d]) = t' ++ [d] := by
        rw [rtrim, List.reverse_append]
        simp only [List.reverse_cons, List.reverse_nil, List.nil_append,
          List.singleton_append]
        rw [List.dropWhile_cons_of_neg (by simp [hdf])]
        simp
      rw [hrt, trim]
      rw [show find_first_not_of (c :: (t' ++ [d])) = some 0 by
        rw [find_first_not_of, if_neg (by simp [hc])]]
      have hrev : (c :: (t' ++ [d])).reverse = d :: (t'.reverse ++ [c]) := by
        simp
      rw [show find_last_not_of (c :: (t' ++ [d])) =
          some ((c :: (t' ++ [d])).length - 1) by
        rw [find_last_not_of, hrev, find_first_not_of,
          if_neg (by simp [hdf])]
        rfl]
      simp only [List.drop_zero, Nat.sub_zero, List.length_cons]
      rw [Nat.sub_add_cancel (by simp)]
      simpa using List.take_length (c :: (t' ++ [d]))

/-- C10: `trim` removes exactly the leading and trailing characters of
the set {space, tab, CR, LF} (it equals dropping that set from the front
and then from the back), returns the empty string on all-set strings,
and is idempotent. -/
theorem trim_spec (l : List Char) :
    trim l = ((l.dropWhile is_trim_ws).reverse.dropWhile is_trim_ws).reverse ∧
    ((∀ c ∈ l, is_trim_ws c = true) → trim l = []) ∧
    trim (trim l) = trim l := by
  have key : ∀ m : List Char, trim m = rtrim (m.dropWhile is_trim_ws) := by
    intro m
    induction m with
    | nil => rfl
    | cons c t ih =>
      by_cases hc : is_trim_ws c
      · rw [trim_cons_ws t hc, List.dropWhile_cons_of_pos hc, ih]
      · have hcf : is_trim_ws c = false := by simpa using hc
        rw [trim_cons_not_ws t hcf, List.dropWhile_cons_of_neg (by simp [hcf]),
          rtrim_cons_not_ws t hcf]
  refine ⟨key l, ?_, ?_⟩
  · intro hall
    rw [key l, List.dropWhile_eq_nil_iff.mpr hall]
    rfl
  · rw [key l, key (rtrim (l.dropWhile is_trim_ws))]
    cases hx : l.dropWhile is_trim_ws with
    | nil => rfl
    | cons c t =>
      have hc : is_trim_ws c = false := dropWhile_head_false hx
      rw [rtrim_cons_not_ws t hc, List.dropWhile_cons_of_neg (by simp [hc]),
        rtrim_cons_not_ws _ hc]
      congr 1
      rw [rtrim, rtrim, List.reverse_reverse, List.dropWhile_idempotent]

/-- C10 witness: the mixed example `"\t hi u\r\n"` trims to `"hi u"`,
the all-set string `" \t"` trims to empty, and trimming is idempotent on
the example. -/
theorem trim_spec_witness :
    trim [' ', '\t', 'h', 'i', ' ', 'u', '\r', '\n'] =
      (([' ', '\t', 'h', 'i', ' ', 'u', '\r', '\n'].dropWhile
        is_trim_ws).reverse.dropWhile is_trim_ws).reverse ∧
    (∀ c ∈ [' ', '\t'], is_trim_ws c = true) ∧
    trim [' ', '\t'] = [] ∧
    trim (trim [' ', '\t', 'h', 'i', ' ', 'u', '\r', '\n']) =
      trim [' ', '\t', 'h', 'i', ' ', 'u', '\r', '\n'] :=
  ⟨(trim_spec [' ', '\t', 'h', 'i', ' ', 'u', '\r', '\n']).1,
   by decide,
   (trim_spec [' ', '\t']).2.1 (by decide),
   (trim_spec [' ', '\t', 'h', 'i', ' ', 'u', '\r', '\n']).2.2⟩

/-- Bounds-checked fixed-width read: `n` bytes off the front, or
Truncated. -/
def readN (n : Nat) (b : List Nat) : Except String (List Nat × List Nat) :=
  if b.length < n then .error "Truncated" else .ok (b.take n, b.drop n)

/-- Bounds-checked big-endian u8 read. -/
def readU8 (b : List Nat) : Except String (Nat × List Nat) :=
  match b with
  | [] => .error "Truncated"
  | x :: rest => .ok (x, rest)

/-- Bounds-checked big-endian u16 read. -/
def readU16 (b : List Nat) : Except String (Nat × List Nat) :=
  match b with
  | x :: y :: rest => .ok (x * 256 + y, rest)
  | _ => .error "Truncated"

/-- Length-prefixed slice with a 1-byte length prefix. -/
def readVec8 (b : List Nat) : Except String (List Nat × List Nat) := do
  let (n, b1) ← readU8 b
  readN n b1

/-- Length-prefixed slice with a 2-byte big-endian length prefix. -/
def readVec16 (b : List Nat) : Except String (List Nat × List Nat) := do
  let (n, b1) ← readU16 b
  readN n b1

/-- The parsed ClientHello body, from the source struct `client_hello`
(uint16_t client_version, 32-byte random, session_id, raw cipher_suites,
compression_methods and extensions vectors). -/
structure client_hello where
  client_version : Nat
  random : List Nat
  session_id : List Nat
  cipher_suites : List Nat
  compression_methods : List Nat
  extensions : List Nat
deriving DecidableEq, Repr

/-- Modelled from the spec: `parse_client_hello` (declared in the
header, implementation absent).  Per spec §4.3: after the 4-byte
handshake header {msg_type=0x01, length u24}, walk
legacy_version u16 · random 32 · session_id vec8 · cipher_suites vec16 ·
compression_methods vec8 · extensions vec16. -/
def parse_client_hello (client_hello_bytes : List Nat) :
    Except String client_hello := do
  let (mt, b) ← readU8 client_hello_bytes
  if mt = 0x01 then do
    let (_, b) ← readN 3 b
    let (ver, b) ← readU16 b
    let (rnd, b) ← readN 32 b
    let (sid, b) ← readVec8 b
    let (cs, b) ← readVec16 b
    let (cm, b) ← readVec8 b
    let (ext, _) ← readVec16 b
    return ⟨ver, rnd, sid, cs, cm, ext⟩
  else .error "MalformedHandshake"

/-- Serialization of a ClientHello body per the spec §4.3 wire layout:
4-byte handshake header, then the six fields with their 1- or 2-byte
big-endian length prefixes. -/
def serialize_client_hello (ch : client_hello) : List Nat :=
  let body := be_bytes 2 ch.client_version ++
    (ch.random ++
    (ch.session_id.length :: (ch.session_id ++
    (be_bytes 2 ch.cipher_suites.length ++ (ch.cipher_suites ++
    (ch.compression_methods.length :: (ch.compression_methods ++
    (be_bytes 2 ch.extensions.length ++ ch.extensions))))))))
  0x01 :: (be_bytes 3 body.length ++ body)

/-- A ClientHello whose variable-length fields fit their wire length
prefixes (and whose random is the required 32 bytes). -/
def wf_client_hello (ch : client_hello) : Prop :=
  ch.client_version < 65536 ∧ ch.random.length = 32 ∧
  ch.session_id.length < 256 ∧ ch.cipher_suites.length < 65536 ∧
  ch.compression_methods.length < 256 ∧ ch.extensions.length < 65536

instance (ch : client_hello) : Decidable (wf_client_hello ch) := by
  unfold wf_client_hello; infer_instance

/-- Modelled from the spec: the extension walk of `get_sni` (declared in
the header, implementation absent).  Per spec §4.3: the extensions blob
is a sequence of (ext_type u16, ext_data vec16); the first ext_type 0
entry's data is returned; exhaustion without one is SniAbsent and any
length underflow is Truncated. -/
def find_sni_ext (b : List Nat) : Except String (List Nat) :=
  match b with
  | [] => .error "SniAbsent"
  | t0 :: t1 :: l0 :: l1 :: rest =>
    let n := l0 * 256 + l1
    if rest.length < n then .error "Truncated"
    else if t0 * 256 + t1 = 0 then .ok (rest.take n)
    else find_sni_ext (rest.drop n)
  | _ => .error "Truncated"
termination_by b.length
decreasing_by
  simp only [List.length_cons, List.length_drop]
  omega

/-- Modelled from the spec: the server_name_list walk of `get_sni`.
Each entry is (name_type u8, name vec16); the first name_type 0 entry's
name is returned; an exhausted or empty list is SniAbsent. -/
def find_host_name (b : List Nat) : Except String (List Nat) :=
  match b with
  | [] => .error "SniAbsent"
  | nt :: l0 :: l1 :: rest =>
    let n := l0 * 256 + l1
    if rest.length < n then .error "Truncated"
    else if nt = 0 then .ok (rest.take n)
    else find_host_name (rest.drop n)
  | _ => .error "Truncated"
termination_by b.length
decreasing_by
  simp only [List.length_cons, List.length_drop]
  omega

/-- Modelled from the spec: inside the SNI extension data, read the
server_name_list vec16 and walk its entries. -/
def parse_sni_data (b : List Nat) : Except String (List Nat) :=
  match b with
  | l0 :: l1 :: rest =>
    let n := l0 * 256 + l1
    if rest.length < n then .error "Truncated"
    else find_host_name (rest.take n)
  | _ => .error "Truncated"

/-- Modelled from the spec: `get_sni` (declared in the header,
implementation absent) — find the type-0 extension in the ClientHello's
extensions blob and return its first host_name entry; the returned
`List Nat` is the byte content of the C++ `std::string` hostname. -/
def get_sni (hello : client_hello) : Except String (List Nat) := do
  let data ← find_sni_ext hello.extensions
  parse_sni_data data

/-- One extension on the wire: ext_type u16, then its data vec16. -/
def serialize_ext (e : Nat × List Nat) : List Nat :=
  be_bytes 2 e.1 ++ (be_bytes 2 e.2.length ++ e.2)

/-- A sequence of extensions as laid out in the extensions blob. -/
def serialize_exts (es : List (Nat × List Nat)) : List Nat :=
  (es.map serialize_ext).flatten

/-- One server_name_list entry: name_type u8, then the name vec16. -/
def serialize_sni_entry (e : Nat × List Nat) : List Nat :=
  e.1 :: (be_bytes 2 e.2.length ++ e.2)

/-- A sequence of server_name_list entries. -/
def serialize_entries (es : List (Nat × List Nat)) : List Nat :=
  (es.map serialize_sni_entry).flatten

/-- SNI extension data: the server_name_list vec16. -/
def serialize_sni_data (es : List (Nat × List Nat)) : List Nat :=
  be_bytes 2 (serialize_entries es).length ++ serialize_entries es

/-- An extension whose type and data fit their wire fields. -/
def wf_ext (e : Nat × List Nat) : Prop := e.1 < 65536 ∧ e.2.length < 65536

/-- A server_name_list entry whose name_type and name fit their wire
fields. -/
def wf_entry (e : Nat × List Nat) : Prop := e.1 < 256 ∧ e.2.length < 65536

theorem bind_ok {A B : Type} (a : A) (f : A → Except String B) :
    (Except.ok a : Except String A) >>= f = f a := rfl

theorem readN_exact {xs : List Nat} {n : Nat} (h : xs.length = n)
    (rest : List Nat) : readN n (xs ++ rest) = .ok (xs, rest) := by
  rw [readN, if_neg (by simp [h]), List.take_left' h, List.drop_left' h]

theorem readU16_be {v : Nat} (hv : v < 65536) (rest : List Nat) :
    readU16 (be_bytes 2 v ++ rest) = .ok (v, rest) := by
  show Except.ok (v / 256 % 256 * 256 + v % 256, rest) = .ok (v, rest)
  have hv2 : v / 256 % 256 * 256 + v % 256 = v := by omega
  rw [hv2]

theorem readVec8_ser (xs rest : List Nat) :
    readVec8 (xs.length :: (xs ++ rest)) = .ok (xs, rest) := by
  show readN xs.length (xs ++ rest) = .ok (xs, rest)
  exact readN_exact rfl rest

theorem readVec16_ser {xs : List Nat} (h : xs.length < 65536)
    (rest : List Nat) :
    readVec16 (be_bytes 2 xs.length ++ (xs ++ rest)) = .ok (xs, rest) := by
  rw [readVec16, readU16_be h]
  exact readN_exact rfl rest

theorem readVec16_ser_nil {xs : List Nat} (h : xs.length < 65536) :
    readVec16 (be_bytes 2 xs.length ++ xs) = .ok (xs, []) := by
  have h2 := readVec16_ser h []
  rwa [List.append_nil] at h2

/-- Parsing inverts serialization on well-formed ClientHellos. -/
theorem parse_serialize_client_hello (ch : client_hello)
    (h : wf_client_hello ch) :
    parse_client_hello (serialize_client_hello ch) = .ok ch := by
  obtain ⟨h1, h2, h3, h4, h5, h6⟩ := h
  rw [serialize_client_hello, parse_client_hello]
  simp only [readU8, bind_ok]
  rw [if_pos trivial]
  rw [readN_exact (be_bytes_length 3 _) _, bind_ok]
  dsimp only
  rw [readU16_be h1 _, bind_ok]
  dsimp only
  rw [readN_exact h2 _, bind_ok]
  dsimp only
  rw [readVec8_ser _ _, bind_ok]
  dsimp only
  rw [readVec16_ser h4 _, bind_ok]
  dsimp only
  rw [readVec8_ser _ _, bind_ok]
  dsimp only
  rw [readVec16_ser_nil h6, bind_ok]
  rfl

instance (e : Nat × List Nat) : Decidable (wf_ext e) := by
  unfold wf_ext; infer_instance

instance (e : Nat × List Nat) : Decidable (wf_entry e) := by
  unfold wf_entry; infer_instance

theorem bind_err {A B : Type} (e : String) (f : A → Except String B) :
    (Except.error e : Except String A) >>= f = .error e := rfl

/-- The extension walk steps over one serialized non-SNI extension. -/
theorem find_sni_ext_skip (e : Nat × List Nat) (he : wf_ext e)
    (hne : e.1 ≠ 0) (tail : List Nat) :
    find_sni_ext (serialize_ext e ++ tail) = find_sni_ext tail := by
  obtain ⟨t, d⟩ := e
  obtain ⟨ht, hd⟩ := he
  simp only at ht hd hne
  show find_sni_ext (t / 256 % 256 :: t % 256 :: d.length / 256 % 256 ::
    d.length % 256 :: (d ++ tail)) = find_sni_ext tail
  rw [find_sni_ext]
  have h1 : t / 256 % 256 * 256 + t % 256 = t := by omega
  have h2 : d.length / 256 % 256 * 256 + d.length % 256 = d.length := by
    omega
  simp only [h1, h2, List.length_append]
  rw [if_neg (by omega), if_neg hne, List.drop_left' rfl]

/-- The extension walk returns the data of a serialized type-0 (SNI)
extension at the front. -/
theorem find_sni_ext_hit (d : List Nat) (hd : d.length < 65536)
    (tail : List Nat) :
    find_sni_ext (serialize_ext (0, d) ++ tail) = .ok d := by
  show find_sni_ext (0 / 256 % 256 :: 0 % 256 :: d.length / 256 % 256 ::
    d.length % 256 :: (d ++ tail)) = .ok d
  rw [find_sni_ext]
  have h2 : d.length / 256 % 256 * 256 + d.length % 256 = d.length := by
    omega
  simp only [h2, List.length_append]
  rw [if_neg (by omega)]
  rw [if_pos (by norm_num)]
  rw [List.take_left' rfl]

/-- The extension walk steps over any run of serialized non-SNI
extensions. -/
theorem find_sni_ext_skip_all (es : List (Nat × List Nat))
    (hes : ∀ e ∈ es, wf_ext e ∧ e.1 ≠ 0) (tail : List Nat) :
    find_sni_ext (serialize_exts es ++ tail) = find_sni_ext tail := by
  induction es with
  | nil => rw [serialize_exts]; simp
  | cons e es ih =>
    have he := hes e (by simp)
    rw [serialize_exts, List.map_cons, List.flatten_cons, List.append_assoc]
    rw [find_sni_ext_skip e he.1 he.2]
    exact ih (fun x hx => hes x (by simp [hx]))

/-- The entry walk steps over one serialized non-host_name entry. -/
theorem find_host_name_skip (e : Nat × List Nat) (hne : e.1 ≠ 0)
    (hd : e.2.length < 65536) (tail : List Nat) :
    find_host_name (serialize_sni_entry e ++ tail) = find_host_name tail := by
  obtain ⟨nt, d⟩ := e
  simp only at hne hd
  show find_host_name (nt :: d.length / 256 % 256 ::
    d.length % 256 :: (d ++ tail)) = find_host_name tail
  rw [find_host_name]
  have h2 : d.length / 256 % 256 * 256 + d.length % 256 = d.length := by
    omega
  simp only [h2, List.length_append]
  rw [if_neg (by omega), if_neg hne, List.drop_left' rfl]

/-- The entry walk returns the name of a serialized name_type-0 entry at
the front. -/
theorem find_host_name_hit (name : List Nat) (hn : name.length < 65536)
    (tail : List Nat) :
    find_host_name (serialize_sni_entry (0, name) ++ tail) = .ok name := by
  show find_host_name (0 :: name.length / 256 % 256 ::
    name.length % 256 :: (name ++ tail)) = .ok name
  rw [find_host_name]
  have h2 : name.length / 256 % 256 * 256 + name.length % 256 =
      name.length := by omega
  simp only [h2, List.length_append]
  rw [if_neg (by omega)]
  rw [if_pos (by norm_num)]
  rw [List.take_left' rfl]

/-- The entry walk steps over any run of serialized non-host_name
entries. -/
theorem find_host_name_skip_all (es : List (Nat × List Nat))
    (hes : ∀ e ∈ es, wf_entry e ∧ e.1 ≠ 0) (tail : List Nat) :
    find_host_name (serialize_entries es ++ tail) = find_host_name tail := by
  induction es with
  | nil => rw [serialize_entries]; simp
  | cons e es ih =>
    have he := hes e (by simp)
    rw [serialize_entries, List.map_cons, List.flatten_cons,
      List.append_assoc]
    rw [find_host_name_skip e he.2 he.1.2]
    exact ih (fun x hx => hes x (by simp [hx]))

/-- Reading the server_name_list vec16 of a serialized SNI data blob
hands the serialized entries to the entry walk. -/
theorem parse_sni_data_ser (es : List (Nat × List Nat))
    (hk : (serialize_entries es).length < 65536) :
    parse_sni_data (serialize_sni_data es) =
      find_host_name (serialize_entries es) := by
  show parse_sni_data ((serialize_entries es).length / 256 % 256 ::
    (serialize_entries es).length % 256 :: serialize_entries es) = _
  rw [parse_sni_data]
  have h2 : (serialize_entries es).length / 256 % 256 * 256 +
      (serialize_entries es).length % 256 = (serialize_entries es).length :=
    by omega
  simp only [h2]
  rw [if_neg (by omega), List.take_length]

theorem serialize_exts_split (a : List (Nat × List Nat))
    (x : Nat × List Nat) (b : List (Nat × List Nat)) :
    serialize_exts (a ++ x :: b) =
      serialize_exts a ++ (serialize_ext x ++ serialize_exts b) := by
  simp [serialize_exts, List.map_append]

theorem serialize_entries_split (a : List (Nat × List Nat))
    (x : Nat × List Nat) (b : List (Nat × List Nat)) :
    serialize_entries (a ++ x :: b) =
      serialize_entries a ++ (serialize_sni_entry x ++ serialize_entries b) := by
  simp [serialize_entries, List.map_append]

theorem find_sni_ext_nil : find_sni_ext [] = .error "SniAbsent" := by
  rw [find_sni_ext]

theorem find_host_name_nil : find_host_name [] = .error "SniAbsent" := by
  rw [find_host_name]

/-- C4: for every well-formed ClientHello whose extensions blob encodes,
after any run of non-SNI extensions, an SNI extension whose
server_name_list carries exactly one host_name entry (name_type 0),
`get_sni` after `parse_client_hello` of the serialized hello returns
exactly that hostname's bytes; and when the extensions blob encodes no
SNI extension at all, or an SNI extension with an empty
server_name_list, it fails with SniAbsent. -/
theorem get_sni_parse_serialize (ch : client_hello)
    (hch : wf_client_hello ch) :
    (∀ (pre post entries epre epost : List (Nat × List Nat))
        (name : List Nat),
      (∀ e ∈ pre, wf_ext e ∧ e.1 ≠ 0) →
      entries = epre ++ (0, name) :: epost →
      (∀ e ∈ epre, wf_entry e ∧ e.1 ≠ 0) →
      (∀ e ∈ epost, e.1 ≠ 0) →
      name.length < 65536 →
      (serialize_entries entries).length + 2 < 65536 →
      ch.extensions =
        serialize_exts (pre ++ (0, serialize_sni_data entries) :: post) →
      parse_client_hello (serialize_client_hello ch) = .ok ch ∧
        get_sni ch = .ok name) ∧
    (∀ exts : List (Nat × List Nat),
      (∀ e ∈ exts, wf_ext e ∧ e.1 ≠ 0) →
      ch.extensions = serialize_exts exts →
      parse_client_hello (serialize_client_hello ch) = .ok ch ∧
        get_sni ch = .error "SniAbsent") ∧
    (∀ pre post : List (Nat × List Nat),
      (∀ e ∈ pre, wf_ext e ∧ e.1 ≠ 0) →
      ch.extensions =
        serialize_exts (pre ++ (0, serialize_sni_data []) :: post) →
      parse_client_hello (serialize_client_hello ch) = .ok ch ∧
        get_sni ch = .error "SniAbsent") := by
  refine ⟨?_, ?_, ?_⟩
  · intro pre post entries epre epost name hpre hent hepre hepost hname hk
      hext
    subst hent
    refine ⟨parse_serialize_client_hello ch hch, ?_⟩
    rw [get_sni, hext, serialize_exts_split,
      find_sni_ext_skip_all pre hpre _]
    have hdlen :
        (serialize_sni_data (epre ++ (0, name) :: epost)).length < 65536 := by
      rw [serialize_sni_data]
      simp only [List.length_append, be_bytes_length]
      omega
    rw [find_sni_ext_hit _ hdlen _, bind_ok,
      parse_sni_data_ser _ (by omega), serialize_entries_split,
      find_host_name_skip_all epre hepre _, find_host_name_hit name hname _]
  · intro exts hexts hext
    refine ⟨parse_serialize_client_hello ch hch, ?_⟩
    rw [get_sni, hext]
    have h1 := find_sni_ext_skip_all exts hexts []
    rw [List.append_nil] at h1
    rw [h1, find_sni_ext_nil, bind_err]
  · intro pre post hpre hext
    refine ⟨parse_serialize_client_hello ch hch, ?_⟩
    rw [get_sni, hext, serialize_exts_split,
      find_sni_ext_skip_all pre hpre _]
    have hdlen : (serialize_sni_data []).length < 65536 := by decide
    rw [find_sni_ext_hit _ hdlen _, bind_ok,
      parse_sni_data_ser [] (by decide),
      show serialize_entries [] = [] from rfl, find_host_name_nil]

/-- The bytes of the hostname `"example"`. -/
def sni_example_name : List Nat := [101, 120, 97, 109, 112, 108, 101]

/-- A concrete ClientHello carrying exactly one SNI host_name entry for
`"example"` between two unrelated extensions. -/
def sni_example_ch : client_hello :=
  ⟨0x0303, List.replicate 32 7, [1, 2, 3], [0x13, 0x01], [0],
    serialize_exts [(43, [1, 2]),
      (0, serialize_sni_data [(0, sni_example_name)]), (51, [9])]⟩

/-- C4 witness: on the concrete ClientHello, parsing its serialization
reproduces it and `get_sni` returns the hostname bytes. -/
theorem get_sni_parse_serialize_witness :
    wf_client_hello sni_example_ch ∧
    parse_client_hello (serialize_client_hello sni_example_ch) =
      .ok sni_example_ch ∧
    get_sni sni_example_ch = .ok sni_example_name := by
  refine ⟨by decide, ?_⟩
  exact (get_sni_parse_serialize sni_example_ch (by decide)).1
    [(43, [1, 2])] [(51, [9])] [(0, sni_example_name)] [] []
    sni_example_name (by decide) rfl (by decide) (by decide) (by decide)
    (by decide) rfl

end ntk
